import Mathlib

/-!
Verification of `shamirsplit` (Shamir secret sharing over a prime field).

The Go source (`shamirsplit.go`) is shallowly embedded below:

* `big.Int` values become `ℤ`; Go's `big.Int.Mod` is Euclidean remainder,
  which coincides with Lean's `Int.emod` (`%`), and `big.Int.Exp` with `nil`
  modulus is plain `^`.  `big.Int.Mod` panics on a zero modulus; panics are
  modelled by the `Res.panicked` outcome.
* the `io.Reader` random source becomes a finite list of bytes (`List ℕ`);
  a read that runs off the end of the list models a failing source, and
  `io.ReadFull` of `k` bytes takes the first `k` entries.
* the unbounded rejection loop in `randomNumber` is modelled with explicit
  fuel; the top-level `randomNumber` supplies fuel `s.length + 1`, which is
  always sufficient because every loop iteration either returns, fails, or
  consumes at least one byte (the zero-byte case panics, see below).
  A fuel-exhausted run is `none`; a finished run is `some r`.
* `math/big`'s `GCD` (extended Euclidean algorithm, `d = a*x + b*y`) is
  modelled by `egcd`, written with structural fuel so that it evaluates.
-/

/-- The error returns of the package: `Split`'s two validation errors,
`Join`'s two validation errors, and a propagated random-source read error. -/
inductive Err where
  | invalidParameters
  | secretTooLarge
  | lengthMismatch
  | negativeShareNumber
  | randomSourceFailure
deriving DecidableEq

/-- Outcome of running a piece of the Go code: a run-time panic, an error
return (in Go: `nil, err`, so no shares/secret accompany it), or a normal
return. -/
inductive Res (α : Type) where
  | panicked
  | failed (e : Err)
  | ok (a : α)
deriving DecidableEq

/-- `max.BitLen()` of `math/big` : number of bits of the absolute value.
Written with structural fuel (`n` halving steps always suffice) so that it
evaluates by `decide`. -/
def bitLenAux : ℕ → ℕ → ℕ
  | 0, _ => 0
  | fuel + 1, n => if n = 0 then 0 else bitLenAux fuel (n / 2) + 1

/-- Bit length of a natural number, `bitLen 0 = 0`, `bitLen 5 = 3`. -/
def bitLen (n : ℕ) : ℕ := bitLenAux n n

/-- `n.SetBytes(bytes)` : interpret a byte slice as a big-endian integer. -/
def bytesToInt (bs : List ℕ) : ℤ := bs.foldl (fun acc b => acc * 256 + (b : ℤ)) 0

/-- `bytes[0] &= uint8(int(1<<r) - 1)` : clear the high bits of the first
byte (masking with `2^r - 1` is reduction mod `2^r`).  On an empty slice the
Go code panics; that case is handled by the caller (`randomNumberAux`). -/
def maskFirst (r : ℕ) : List ℕ → List ℕ
  | [] => []
  | b :: rest => b % 2 ^ r :: rest

/-- `k := (max.BitLen() + 7) / 8` : byte length of a candidate. -/
def kBytes (max : ℤ) : ℕ := (bitLen max.natAbs + 7) / 8

/-- `r` in `randomNumber`: the number of bits used in the most significant
byte of `max` (`max.BitLen() % 8`, with `0` replaced by `8`). -/
def highBits (max : ℤ) : ℕ :=
  if bitLen max.natAbs % 8 = 0 then 8 else bitLen max.natAbs % 8

/-- The masked candidate drawn from the front of the byte source. -/
def candidate (max : ℤ) (s : List ℕ) : ℤ :=
  bytesToInt (maskFirst (highBits max) (s.take (kBytes max)))

/-- One candidate-drawing loop of `randomNumber`, with explicit fuel.
Mirrors the Go loop body: `io.ReadFull` of `kBytes max` bytes (failing if
the source is exhausted), then `bytes[0] &= ...` — which is an
index-out-of-range panic when `kBytes max = 0`, i.e. when
`max.BitLen() = 0` — then accept the big-endian value if it is `< max` and
otherwise redraw. -/
def randomNumberAux : ℕ → ℤ → List ℕ → Option (Res (ℤ × List ℕ))
  | 0, _, _ => none
  | fuel + 1, max, s =>
    if s.length < kBytes max then some (.failed .randomSourceFailure)
    else if kBytes max = 0 then some .panicked
    else if candidate max s < max then some (.ok (candidate max s, s.drop (kBytes max)))
    else randomNumberAux fuel max (s.drop (kBytes max))

/-- `randomNumber(rand, max)` : uniform random value in `[0, max)` by
rejection sampling.  Fuel `s.length + 1` is always sufficient. -/
def randomNumber (max : ℤ) (s : List ℕ) : Option (Res (ℤ × List ℕ)) :=
  randomNumberAux (s.length + 1) max s

/-- The coefficient loop of `Split`: `a[i], err = randomNumber(rand, modulus-1);
a[i].Add(a[i], one)` for `i = 1 .. k-1`, threading the byte source. -/
def genCoeffs : ℕ → ℤ → List ℕ → Option (Res (List ℤ × List ℕ))
  | 0, _, s => some (.ok ([], s))
  | cnt + 1, mm1, s =>
    match randomNumber mm1 s with
    | none => none
    | some .panicked => some .panicked
    | some (.failed e) => some (.failed e)
    | some (.ok (r, s')) =>
      match genCoeffs cnt mm1 s' with
      | none => none
      | some .panicked => some .panicked
      | some (.failed e) => some (.failed e)
      | some (.ok (cs, s'')) => some (.ok ((r + 1) :: cs, s''))

/-- The inner evaluation loop of `Split`:
`t = Σ_j a[j] * x^j` starting at exponent `j`. -/
def polyEvalAux (x : ℤ) : List ℤ → ℕ → ℤ
  | [], _ => 0
  | c :: cs, j => c * x ^ j + polyEvalAux x cs (j + 1)

/-- `t = Σ_{j=0}^{k-1} a[j] * x^j` (no intermediate reduction, as in the Go
code, which uses `Exp(bigI, bigJ, nil)`). -/
def polyEval (a : List ℤ) (x : ℤ) : ℤ := polyEvalAux x a 0

/-- `Split(secret, modulus, k, n, rand)`.  Checks `k < 1 || n < k`, then
`secret.Cmp(modulus) >= 0`, then draws the `k-1` random coefficients, then
evaluates the polynomial at `x = 1 .. n`, reducing each value
`t.Mod(t, modulus)`.  The final reduction panics in Go when `modulus = 0`
(division by zero), hence the explicit `.panicked` case. -/
def Split (secret modulus k n : ℤ) (rand : List ℕ) : Option (Res (List ℤ)) :=
  if k < 1 ∨ n < k then some (.failed .invalidParameters)
  else if modulus ≤ secret then some (.failed .secretTooLarge)
  else
    match genCoeffs (k.toNat - 1) (modulus - 1) rand with
    | none => none
    | some .panicked => some .panicked
    | some (.failed e) => some (.failed e)
    | some (.ok (cs, _)) =>
      if modulus = 0 then some .panicked
      else
        some (.ok ((List.range n.toNat).map
          (fun i : ℕ => polyEval (secret :: cs) ((i : ℤ) + 1) % modulus)))

/-- Extended Euclidean algorithm with structural fuel: `egcdAux f a b`
computes `(d, x, y)` with `d = a*x + b*y`, provided `f > a.natAbs`. -/
def egcdAux : ℕ → ℤ → ℤ → ℤ × ℤ × ℤ
  | 0, _, b => (b, 0, 1)
  | fuel + 1, a, b =>
    if a = 0 then (b, 0, 1)
    else
      let r := egcdAux fuel (b % a) a
      (r.1, r.2.2 - b / a * r.2.1, r.2.1)

/-- `d.GCD(x, y, a, b)` of `math/big`: the extended Euclidean algorithm,
returning `(d, x, y)` with `d = gcd(a, b) = a*x + b*y` (for non-negative
inputs). -/
def egcd (a b : ℤ) : ℤ × ℤ × ℤ := egcdAux (a.natAbs + 1) a b

/-- `bigJ.Sub(bigJ, bigI); if bigJ.Cmp(zero) < 0 { bigJ.Add(bigJ, modulus) }`:
the difference of two evaluation points, with the modulus added once when
the difference is negative. -/
def normDiff (m xi xj : ℤ) : ℤ :=
  let d := xj - xi
  if d < 0 then d + m else d

/-- `d.GCD(x, y, bigJ, modulus); if x.Cmp(zero) < 0 { x.Add(x, modulus) }`:
the Bézout coefficient of `a` in `gcd(a, m)`, with the modulus added once
when it is negative. -/
def normBezout (m a : ℤ) : ℤ :=
  let x := (egcd a m).2.1
  if x < 0 then x + m else x

/-- One iteration of `Join`'s inner loop for the current point `xi` and the
other share number `nj`:
`c.Mul(c, bigJ); ...; c.Mul(c, x); c.Mod(c, modulus)` where `bigJ = nj + 1`. -/
def joinStep (m xi c nj : ℤ) : ℤ :=
  c * (nj + 1) * normBezout m (normDiff m xi (nj + 1)) % m

/-- `Join`'s inner loop: fold `joinStep` over all other share numbers,
starting from `c = 1`. -/
def cTerm (m xi : ℤ) (others : List ℤ) : ℤ := others.foldl (joinStep m xi) 1

/-- The outer loop of `Join` over shares/shareNumbers, carrying the list
`pre` of share numbers already processed (so the "all `j ≠ i`" inner loop
runs over `pre ++ ns`).  Each iteration first checks
`shareNumbers[i] < 0`.  When `modulus = 0`, Go panics at the first executed
`c.Mod(c, modulus)` — inside the inner loop if it is non-empty, otherwise at
the final `secret.Mod(secret, modulus)`. -/
def joinLoop (m : ℤ) : List ℤ → List ℤ → List ℤ → ℤ → Res ℤ
  | _, [], _, acc => if m = 0 then .panicked else .ok (acc % m)
  | _, _ :: _, [], acc => if m = 0 then .panicked else .ok (acc % m)
  | pre, y :: ys, nh :: ns, acc =>
    if nh < 0 then .failed .negativeShareNumber
    else if m = 0 ∧ pre ++ ns ≠ [] then .panicked
    else joinLoop m (pre ++ [nh]) ys ns (acc + cTerm m (nh + 1) (pre ++ ns) * y)

/-- `Join(shares, shareNumbers, modulus)` : length check, then Lagrange
interpolation at `x = 0` with points `x_i = shareNumbers[i] + 1`. -/
def Join (shares shareNumbers : List ℤ) (modulus : ℤ) : Res ℤ :=
  if shares.length ≠ shareNumbers.length then .failed .lengthMismatch
  else joinLoop modulus [] shares shareNumbers 0

/-- The list of summands `c_i * shares[i]` accumulated by `joinLoop` on the
non-error path, on the zipped `(share, shareNumber)` pairs. -/
def termListP (m : ℤ) : List ℤ → List (ℤ × ℤ) → List ℤ
  | _, [] => []
  | pre, (y, nh) :: rest =>
    cTerm m (nh + 1) (pre ++ rest.map Prod.snd) * y :: termListP m (pre ++ [nh]) rest

/-! ### Basic facts about the sampler -/

lemma bytesToInt_foldl_nonneg (l : List ℕ) :
    ∀ acc : ℤ, 0 ≤ acc → 0 ≤ l.foldl (fun acc b => acc * 256 + (b : ℤ)) acc := by
  induction l with
  | nil => intro acc h; exact h
  | cons b rest ih =>
    intro acc h
    exact ih _ (by positivity)

lemma bytesToInt_nonneg (l : List ℕ) : 0 ≤ bytesToInt l :=
  bytesToInt_foldl_nonneg l 0 le_rfl

lemma randomNumberAux_cases (fuel : ℕ) (max : ℤ) (s : List ℕ) (r : Res (ℤ × List ℕ)) :
    randomNumberAux fuel max s = some r →
      r = .failed .randomSourceFailure ∨ r = .panicked ∨
        ∃ v rest, r = .ok (v, rest) ∧ 0 ≤ v ∧ v < max := by
  induction fuel generalizing s with
  | zero => intro h; simp [randomNumberAux] at h
  | succ fuel ih =>
    intro h
    rw [randomNumberAux] at h
    split at h
    · exact Or.inl (by simpa using h.symm)
    · split at h
      · exact Or.inr (Or.inl (by simpa using h.symm))
      · split at h
        next hv =>
          refine Or.inr (Or.inr ⟨candidate max s, s.drop (kBytes max), ?_,
            bytesToInt_nonneg _, hv⟩)
          simpa using h.symm
        · exact ih _ h

/-- C6: whenever `randomNumber(rand, max)` returns a value, that value `n`
satisfies `0 ≤ n < max`, for every bound and every byte source; and the only
error it can return is the propagated random-source read failure. -/
theorem sample_bounds (max : ℤ) (s : List ℕ) :
    (∀ v rest, randomNumber max s = some (.ok (v, rest)) → 0 ≤ v ∧ v < max) ∧
      (∀ e, randomNumber max s = some (.failed e) → e = .randomSourceFailure) := by
  constructor
  · intro v rest h
    rcases randomNumberAux_cases _ _ _ _ h with h' | h' | ⟨v', rest', h', hv0, hv1⟩
    · cases h'
    · cases h'
    · obtain ⟨rfl, rfl⟩ : v = v' ∧ rest = rest' := by
        constructor <;> [skip; skip] <;> cases h' <;> rfl
      exact ⟨hv0, hv1⟩
  · intro e h
    rcases randomNumberAux_cases _ _ _ _ h with h' | h' | ⟨v', rest', h', _, _⟩
    · cases h'; rfl
    · cases h'
    · cases h'

/-- Witness for C6 at `max = 5` on the one-byte source `[3]`. -/
theorem sample_bounds_witness : (0 : ℤ) ≤ 3 ∧ (3 : ℤ) < 5 :=
  (sample_bounds 5 [3]).1 3 [] (by decide)

/-- Shared helper: the only error `randomNumber` can return is the
propagated source failure. -/
lemma randomNumber_failed (max : ℤ) (s : List ℕ) (e : Err) :
    randomNumber max s = some (.failed e) → e = .randomSourceFailure := by
  intro h
  rcases randomNumberAux_cases _ _ _ _ h with h' | h' | ⟨v', rest', h', _, _⟩
  · cases h'; rfl
  · cases h'
  · cases h'

/-- Shared helper: with bound `0` the requested byte buffer is empty, so the
first loop iteration reaches `bytes[0]` and panics. -/
lemma randomNumber_zero (s : List ℕ) : randomNumber 0 s = some .panicked := by
  have hk : kBytes 0 = 0 := rfl
  rw [randomNumber, randomNumberAux, hk]
  simp

/-- C10 counterexample: `randomNumber` with bound `0` does not loop forever —
already in its first iteration it panics (`bytes[0]` on an empty buffer),
and `Split` with modulus `1` and `k = 2` consequently panics as well. -/
theorem bound_zero_counterexample :
    randomNumberAux 1 0 [] = some .panicked ∧ randomNumberAux 1 0 [] ≠ none ∧
      Split 0 1 2 2 [] = some .panicked ∧ Split 0 1 2 2 [] ≠ none := by decide

/-- C10 amended: with bound `0` the sampler's first iteration reads zero
bytes (which cannot fail) and then panics indexing the empty buffer, so
`randomNumber`, and `Split` with `modulus = 1` and `k ≥ 2` through it,
panics rather than returning shares or an error (it does not loop). -/
theorem bound_zero_panics (s : List ℕ) (secret k n : ℤ)
    (hsec : secret < 1) (hk : 2 ≤ k) (hn : k ≤ n) :
    randomNumber 0 s = some Res.panicked ∧ Split secret 1 k n s = some Res.panicked := by
  refine ⟨randomNumber_zero s, ?_⟩
  obtain ⟨c, hc⟩ : ∃ c, k.toNat - 1 = c + 1 := ⟨k.toNat - 2, by omega⟩
  have h1 : ¬(k < 1 ∨ n < k) := by omega
  have h2 : ¬((1 : ℤ) ≤ secret) := by omega
  rw [Split, if_neg h1, if_neg h2, hc, genCoeffs]
  rw [show (1 : ℤ) - 1 = 0 from rfl, randomNumber_zero s]

/-- Witness for the amended C10 at `secret = 0`, `k = 2`, `n = 2`, empty source. -/
theorem bound_zero_panics_witness :
    randomNumber 0 [] = some Res.panicked ∧ Split 0 1 2 2 [] = some Res.panicked :=
  bound_zero_panics [] 0 2 2 (by decide) (by decide) (by decide)

/-! ### Split validation (C4) -/

/-- Shared helper: the only error the coefficient loop can return is the
propagated source failure. -/
lemma genCoeffs_failed (cnt : ℕ) (mm1 : ℤ) (s : List ℕ) (e : Err) :
    genCoeffs cnt mm1 s = some (.failed e) → e = .randomSourceFailure := by
  induction cnt generalizing s with
  | zero => intro h; simp [genCoeffs] at h
  | succ cnt ih =>
    intro h
    rw [genCoeffs] at h
    rcases hr : randomNumber mm1 s with _ | r
    · rw [hr] at h; cases h
    · rcases r with _ | e' | ⟨v, s'⟩
      · rw [hr] at h; cases h
      · rw [hr] at h
        cases h
        exact randomNumber_failed _ _ _ hr
      · rw [hr] at h
        dsimp only at h
        rcases hg : genCoeffs cnt mm1 s' with _ | r2
        · rw [hg] at h; cases h
        · rcases r2 with _ | e2 | ⟨cs, s''⟩
          · rw [hg] at h; cases h
          · rw [hg] at h; cases h; exact ih _ hg
          · rw [hg] at h; cases h

/-- C4: `Split` fails with `InvalidParameters` exactly when `k < 1` or
`n < k`, and with `SecretTooLarge` exactly when the `k`/`n` check passes and
`secret ≥ modulus`; in every such case the result is decided before any
sampling: it is the same for every byte source (no bytes are consumed), and
being a `.failed` return, no shares accompany it (Go returns `nil`). -/
theorem split_validation (secret m k n : ℤ) (rand : List ℕ) :
    (Split secret m k n rand = some (.failed .invalidParameters) ↔ k < 1 ∨ n < k) ∧
      (Split secret m k n rand = some (.failed .secretTooLarge) ↔
        ¬(k < 1 ∨ n < k) ∧ m ≤ secret) ∧
      ((k < 1 ∨ n < k ∨ m ≤ secret) →
        ∀ rand', Split secret m k n rand = Split secret m k n rand') := by
  by_cases h1 : k < 1 ∨ n < k
  · rw [Split, if_pos h1]
    refine ⟨iff_of_true rfl h1, iff_of_false (by simp) (fun hc => hc.1 h1),
      fun _ rand' => ?_⟩
    rw [Split, if_pos h1]
  · by_cases h2 : m ≤ secret
    · rw [Split, if_neg h1, if_pos h2]
      refine ⟨iff_of_false (by simp) h1, iff_of_true rfl ⟨h1, h2⟩, fun _ rand' => ?_⟩
      rw [Split, if_neg h1, if_pos h2]
    · have hni : ∀ r, Split secret m k n r ≠ some (.failed .invalidParameters) ∧
          Split secret m k n r ≠ some (.failed .secretTooLarge) := by
        intro r
        rw [Split, if_neg h1, if_neg h2]
        rcases hg : genCoeffs (k.toNat - 1) (m - 1) r with _ | rr
        · simp
        · rcases rr with _ | e | ⟨cs, s''⟩
          · simp
          · have he := genCoeffs_failed _ _ _ _ hg
            subst he
            simp
          · by_cases hm : m = 0 <;> simp [hm]
      exact ⟨iff_of_false (hni rand).1 h1, iff_of_false (hni rand).2 (fun hc => h2 hc.2),
        fun hcond _ => absurd hcond (by omega)⟩

/-- Witness for C4: `k = 0` yields `InvalidParameters`; `secret = 7 ≥ 5 =
modulus` yields `SecretTooLarge`. -/
theorem split_validation_witness :
    Split 0 5 0 3 [] = some (.failed .invalidParameters) ∧
      Split 7 5 2 3 [] = some (.failed .secretTooLarge) :=
  ⟨(split_validation 0 5 0 3 []).1.mpr (by decide),
    (split_validation 7 5 2 3 []).2.1.mpr (by decide)⟩

/-! ### Join: loop characterization, validation (C5), absence of a
`NoModularInverse` error (C2) -/

/-- Shared helper: on a nonzero modulus with valid inputs, `joinLoop`
returns the accumulated interpolation sum reduced mod `m`. -/
lemma joinLoop_ok (m : ℤ) (hm : m ≠ 0) :
    ∀ (sh nu pre : List ℤ) (acc : ℤ), sh.length = nu.length → (∀ x ∈ nu, 0 ≤ x) →
      joinLoop m pre sh nu acc = .ok ((acc + (termListP m pre (sh.zip nu)).sum) % m) := by
  intro sh
  induction sh with
  | nil =>
    intro nu pre acc hlen hpos
    rw [joinLoop, if_neg hm]
    simp [termListP]
  | cons y ys ih =>
    intro nu pre acc hlen hpos
    rcases nu with _ | ⟨nh, ns⟩
    · simp at hlen
    · have hnh : ¬nh < 0 := not_lt.mpr (hpos nh (by simp))
      rw [joinLoop, if_neg hnh, if_neg (by simp [hm])]
      rw [ih ns (pre ++ [nh]) _ (by simpa using hlen) (fun x hx => hpos x (by simp [hx]))]
      have hmap : (ys.zip ns).map Prod.snd = ns :=
        List.map_snd_zip ys ns (by simpa using hlen.symm.le)
      rw [List.zip_cons_cons, termListP, hmap]
      rw [List.sum_cons, add_assoc]

/-- Shared helper: on a nonzero modulus with matching lengths, `joinLoop`
either hits a negative share number (and only then fails, with
`NegativeShareNumber`) or returns a value. -/
lemma joinLoop_shape (m : ℤ) (hm : m ≠ 0) :
    ∀ (sh nu pre : List ℤ) (acc : ℤ), sh.length = nu.length →
      (joinLoop m pre sh nu acc = .failed .negativeShareNumber ∧ ∃ x ∈ nu, x < 0) ∨
        (∃ v, joinLoop m pre sh nu acc = .ok v ∧ ∀ x ∈ nu, 0 ≤ x) := by
  intro sh
  induction sh with
  | nil =>
    intro nu pre acc hlen
    have : nu = [] := List.eq_nil_of_length_eq_zero (by simpa using hlen.symm)
    subst this
    refine Or.inr ⟨acc % m, ?_, by simp⟩
    rw [joinLoop, if_neg hm]
  | cons y ys ih =>
    intro nu pre acc hlen
    rcases nu with _ | ⟨nh, ns⟩
    · simp at hlen
    · by_cases hnh : nh < 0
      · refine Or.inl ⟨?_, nh, by simp, hnh⟩
        rw [joinLoop, if_pos hnh]
      · rw [joinLoop, if_neg hnh, if_neg (by simp [hm])]
        rcases ih ns (pre ++ [nh]) (acc + cTerm m (nh + 1) (pre ++ ns) * y)
            (by simpa using hlen) with ⟨herr, x, hx, hxneg⟩ | ⟨v, hok, hpos⟩
        · exact Or.inl ⟨herr, x, by simp [hx], hxneg⟩
        · refine Or.inr ⟨v, hok, fun x hx => ?_⟩
          rcases List.mem_cons.mp hx with rfl | hx'
          · exact not_lt.mp hnh
          · exact hpos x hx'

/-- C5: `Join` fails with `LengthMismatch` exactly when the two sequences
differ in length and, given equal lengths, fails with `NegativeShareNumber`
exactly when some share number is negative; both are bare error returns
(no secret accompanies a `.failed` result).  The modulus is assumed nonzero:
on a zero modulus Go's `c.Mod(c, modulus)` panics, which can preempt the
report of a negative share number at a later position. -/
theorem join_validation (shares nums : List ℤ) (m : ℤ) (hm : m ≠ 0) :
    (Join shares nums m = .failed .lengthMismatch ↔ shares.length ≠ nums.length) ∧
      (shares.length = nums.length →
        (Join shares nums m = .failed .negativeShareNumber ↔ ∃ x ∈ nums, x < 0)) := by
  by_cases hlen : shares.length = nums.length
  · rw [Join, if_neg (by simpa using hlen)]
    rcases joinLoop_shape m hm shares nums [] 0 hlen with ⟨herr, hex⟩ | ⟨v, hok, hpos⟩
    · exact ⟨iff_of_false (by simp [herr]) (by simpa using hlen),
        fun _ => iff_of_true herr hex⟩
    · refine ⟨iff_of_false (by simp [hok]) (by simpa using hlen), fun _ => ?_⟩
      exact iff_of_false (by simp [hok])
        (by rintro ⟨x, hx, hneg⟩; exact absurd (hpos x hx) (not_le.mpr hneg))
  · rw [Join, if_pos (by simpa using hlen)]
    exact ⟨iff_of_true rfl hlen, fun h => absurd h hlen⟩

/-- Witness for C5: a length mismatch and a negative share number each
produce the corresponding error. -/
theorem join_validation_witness :
    Join [1] [] 5 = .failed .lengthMismatch ∧
      Join [1, 2] [0, -1] 5 = .failed .negativeShareNumber :=
  ⟨((join_validation [1] [] 5 (by decide)).1).mpr (by decide),
    ((join_validation [1, 2] [0, -1] 5 (by decide)).2 (by decide)).mpr
      ⟨-1, by decide, by decide⟩⟩

/-- C2 counterexample: with the non-prime modulus `4` and share numbers
`0` and `2` (evaluation points `1` and `3`, whose difference `2` shares the
factor `2` with the modulus) `Join` does NOT fail: it returns a numeric
result.  There is no `NoModularInverse` error anywhere in the code. -/
theorem no_modular_inverse_counterexample :
    Join [0, 0] [0, 2] 4 = .ok 0 ∧ Int.gcd ((2 + 1) - (0 + 1)) 4 ≠ 1 ∧ ¬Nat.Prime 4 := by
  refine ⟨by decide, by decide, by norm_num⟩

/-- C2 amended: `Join` performs no invertibility or primality check at all:
for every pair of equal-length inputs with non-negative share numbers and
nonzero modulus — including non-prime moduli for which a required modular
inverse does not exist — it returns a numeric result, never a distinct
`NoModularInverse` failure. -/
theorem join_never_no_modular_inverse (shares nums : List ℤ) (m : ℤ)
    (hlen : shares.length = nums.length) (hpos : ∀ x ∈ nums, 0 ≤ x) (hm : m ≠ 0) :
    ∃ v, Join shares nums m = .ok v := by
  have h := joinLoop_ok m hm shares nums [] 0 hlen hpos
  exact ⟨_, by rw [Join, if_neg (by simpa using hlen)]; exact h⟩

/-- Witness for the amended C2 on the concrete non-prime instance. -/
theorem join_never_no_modular_inverse_witness :
    ∃ v, Join [1, 2] [0, 2] 4 = .ok v :=
  join_never_no_modular_inverse [1, 2] [0, 2] 4 (by decide) (by decide) (by decide)

/-! ### Properties of the extended Euclidean algorithm `egcd` -/

lemma natAbs_emod_lt (a b : ℤ) (h : b ≠ 0) : (a % b).natAbs < b.natAbs := by
  have h0 : 0 ≤ a % b := Int.emod_nonneg a h
  rcases lt_or_gt_of_ne h with hb | hb
  · have hlt : a % b < -b := by
      rw [show a % b = a % (-b) from (Int.emod_neg a b).symm]
      exact Int.emod_lt_of_pos a (by omega)
    omega
  · have hlt : a % b < b := Int.emod_lt_of_pos a hb
    omega

lemma egcdAux_stable (f1 : ℕ) :
    ∀ (f2 : ℕ) (a b : ℤ), a.natAbs < f1 → a.natAbs < f2 →
      egcdAux f1 a b = egcdAux f2 a b := by
  induction f1 with
  | zero => intro f2 a b h1 _; omega
  | succ f1 ih =>
    intro f2 a b h1 h2
    rcases f2 with _ | f2
    · omega
    · rw [egcdAux, egcdAux]
      by_cases ha : a = 0
      · rw [if_pos ha, if_pos ha]
      · rw [if_neg ha, if_neg ha]
        have hlt := natAbs_emod_lt b a ha
        rw [ih f2 (b % a) a (by omega) (by omega)]

lemma egcd_zero (b : ℤ) : egcd 0 b = (b, 0, 1) := rfl

lemma egcd_rec (a b : ℤ) (h : a ≠ 0) :
    egcd a b = ((egcd (b % a) a).1,
      (egcd (b % a) a).2.2 - b / a * (egcd (b % a) a).2.1, (egcd (b % a) a).2.1) := by
  have hlt := natAbs_emod_lt b a h
  rw [egcd, egcdAux, if_neg h, egcd,
    egcdAux_stable a.natAbs ((b % a).natAbs + 1) (b % a) a (by omega) (by omega)]

/-- Bézout identity for `egcd`: `a*x + b*y = d`. -/
lemma egcd_bezout_aux (n : ℕ) :
    ∀ a b : ℤ, a.natAbs ≤ n →
      a * (egcd a b).2.1 + b * (egcd a b).2.2 = (egcd a b).1 := by
  induction n with
  | zero =>
    intro a b h
    have ha : a = 0 := by omega
    subst ha
    rw [egcd_zero]
    ring
  | succ n ih =>
    intro a b h
    by_cases ha : a = 0
    · subst ha; rw [egcd_zero]; ring
    · have hlt := natAbs_emod_lt b a ha
      have ih' := ih (b % a) a (by omega)
      have hmod := Int.emod_def b a
      rw [egcd_rec a b ha]
      dsimp only
      linear_combination ih' - (egcd (b % a) a).2.1 * hmod

lemma egcd_bezout (a b : ℤ) :
    a * (egcd a b).2.1 + b * (egcd a b).2.2 = (egcd a b).1 :=
  egcd_bezout_aux a.natAbs a b le_rfl

/-- The first component of `egcd` divides both arguments. -/
lemma egcd_dvd_aux (n : ℕ) :
    ∀ a b : ℤ, a.natAbs ≤ n → (egcd a b).1 ∣ a ∧ (egcd a b).1 ∣ b := by
  induction n with
  | zero =>
    intro a b h
    have ha : a = 0 := by omega
    subst ha
    rw [egcd_zero]
    exact ⟨dvd_zero b, dvd_rfl⟩
  | succ n ih =>
    intro a b h
    by_cases ha : a = 0
    · subst ha; rw [egcd_zero]; exact ⟨dvd_zero b, dvd_rfl⟩
    · have hlt := natAbs_emod_lt b a ha
      obtain ⟨h1, h2⟩ := ih (b % a) a (by omega)
      rw [egcd_rec a b ha]
      refine ⟨h2, ?_⟩
      have h3 : (egcd (b % a) a).1 ∣ a * (b / a) + b % a :=
        dvd_add (Dvd.dvd.mul_right h2 _) h1
      have h4 : a * (b / a) + b % a = b := Int.ediv_add_emod b a
      rwa [h4] at h3

lemma egcd_dvd (a b : ℤ) : (egcd a b).1 ∣ a ∧ (egcd a b).1 ∣ b :=
  egcd_dvd_aux a.natAbs a b le_rfl

/-- For non-negative arguments the gcd returned by `egcd` is non-negative. -/
lemma egcd_fst_nonneg_aux (n : ℕ) :
    ∀ a b : ℤ, a.natAbs ≤ n → 0 ≤ a → 0 ≤ b → 0 ≤ (egcd a b).1 := by
  induction n with
  | zero =>
    intro a b h _ hb
    have ha : a = 0 := by omega
    subst ha
    rw [egcd_zero]
    exact hb
  | succ n ih =>
    intro a b h ha0 hb0
    by_cases ha : a = 0
    · subst ha; rw [egcd_zero]; exact hb0
    · have hlt := natAbs_emod_lt b a ha
      rw [egcd_rec a b ha]
      exact ih (b % a) a (by omega) (Int.emod_nonneg b ha) ha0

lemma egcd_fst_nonneg (a b : ℤ) (ha : 0 ≤ a) (hb : 0 ≤ b) : 0 ≤ (egcd a b).1 :=
  egcd_fst_nonneg_aux a.natAbs a b le_rfl ha hb

lemma egcd_fst_pos (a b : ℤ) (ha : 0 < a) (hb : 0 ≤ b) : 0 < (egcd a b).1 := by
  have h1 := egcd_fst_nonneg a b ha.le hb
  have h2 := (egcd_dvd a b).1
  rcases h1.lt_or_eq with h | h
  · exact h
  · rw [← h, zero_dvd_iff] at h2
    omega

/-- Size bound on the Bézout coefficients produced by `egcd`:
for `1 ≤ a < b`, `2·d·|x| ≤ b` and `2·d·|y| ≤ a`. -/
lemma egcd_bound_aux (n : ℕ) :
    ∀ a b : ℤ, a.natAbs ≤ n → 1 ≤ a → a < b →
      2 * (egcd a b).1 * |(egcd a b).2.1| ≤ b ∧
        2 * (egcd a b).1 * |(egcd a b).2.2| ≤ a := by
  induction n with
  | zero => intro a b h ha _; omega
  | succ n ih =>
    intro a b h ha hab
    have ha0 : a ≠ 0 := by omega
    have hq1 : 1 ≤ b / a := (Int.le_ediv_iff_mul_le (by omega)).mpr (by omega)
    have hr0 : 0 ≤ b % a := Int.emod_nonneg b ha0
    have hra : b % a < a := Int.emod_lt_of_pos b (by omega)
    have hsplit : a * (b / a) + b % a = b := Int.ediv_add_emod b a
    rw [egcd_rec a b ha0]
    dsimp only
    by_cases hr : b % a = 0
    · rw [hr, egcd_zero]
      dsimp only
      have hq2 : 2 ≤ b / a := by nlinarith
      constructor
      · have h1 : (1 : ℤ) - b / a * 0 = 1 := by ring
        rw [h1, abs_one]
        nlinarith
      · simp only [abs_zero, mul_zero]
        omega
    · have hlt := natAbs_emod_lt b a ha0
      obtain ⟨ihx, ihy⟩ := ih (b % a) a (by omega) (by omega) hra
      have hd0 : 0 < (egcd (b % a) a).1 := egcd_fst_pos _ _ (by omega) (by omega)
      constructor
      · have htri : |(egcd (b % a) a).2.2 - b / a * (egcd (b % a) a).2.1| ≤
            |(egcd (b % a) a).2.2| + (b / a) * |(egcd (b % a) a).2.1| := by
          calc |(egcd (b % a) a).2.2 - b / a * (egcd (b % a) a).2.1|
              ≤ |(egcd (b % a) a).2.2| + |b / a * (egcd (b % a) a).2.1| := abs_sub _ _
            _ = |(egcd (b % a) a).2.2| + (b / a) * |(egcd (b % a) a).2.1| := by
                rw [abs_mul, abs_of_nonneg (by omega : (0:ℤ) ≤ b / a)]
        nlinarith [abs_nonneg (egcd (b % a) a).2.1, abs_nonneg (egcd (b % a) a).2.2]
      · exact ihx

lemma egcd_bound (a b : ℤ) (ha : 1 ≤ a) (hab : a < b) :
    2 * (egcd a b).1 * |(egcd a b).2.1| ≤ b ∧
      2 * (egcd a b).1 * |(egcd a b).2.2| ≤ a :=
  egcd_bound_aux a.natAbs a b le_rfl ha hab

/-- Shared helper: the normalized Bézout coefficient used by `Join` lies in
`[0, m)` whenever the inverted quantity lies in `[0, m)`. -/
lemma normBezout_range (m a : ℤ) (hm : 0 < m) (h0 : 0 ≤ a) (h1 : a < m) :
    0 ≤ normBezout m a ∧ normBezout m a < m := by
  rcases h0.eq_or_gt with rfl | hpos
  · rw [normBezout, egcd_zero]
    simp [hm.le, hm]
  · have hd0 : 0 < (egcd a m).1 := egcd_fst_pos a m hpos hm.le
    have hb := (egcd_bound a m (by omega) h1).1
    have habs : |(egcd a m).2.1| < m := by nlinarith [abs_nonneg (egcd a m).2.1]
    rw [normBezout]
    rcases abs_lt.mp habs with ⟨hlow, hhigh⟩
    by_cases hneg : (egcd a m).2.1 < 0
    · rw [if_pos hneg]; omega
    · rw [if_neg hneg]; omega

/-- C3 counterexample: with positive modulus `3` and the non-negative share
numbers `0` and `5` (evaluation points `1` and `6`), the quantity `Join`
inverts is `x_j - x_i = 5`, which is NOT normalized into `[0, 3)`: the code
only adds the modulus when the difference is negative and never reduces a
positive difference. -/
theorem join_normalization_counterexample :
    normDiff 3 (0 + 1) (5 + 1) = 5 ∧ ¬(normDiff 3 (0 + 1) (5 + 1) < 3) := by decide

/-- C3 amended: provided every share number lies in `[0, modulus)`, the
quantity inverted — `(x_j - x_i)` with the modulus added once when negative —
lies in `[0, modulus)`, and the Bézout coefficient obtained from the
extended GCD, with the modulus added once when negative, lies in
`[0, modulus)` as well.  (For share numbers `≥ modulus` the difference can
escape the range, see the counterexample.) -/
theorem join_normalization (m ni nj : ℤ) (hm : 0 < m)
    (hni0 : 0 ≤ ni) (hni1 : ni < m) (hnj0 : 0 ≤ nj) (hnj1 : nj < m) :
    (0 ≤ normDiff m (ni + 1) (nj + 1) ∧ normDiff m (ni + 1) (nj + 1) < m) ∧
      (0 ≤ normBezout m (normDiff m (ni + 1) (nj + 1)) ∧
        normBezout m (normDiff m (ni + 1) (nj + 1)) < m) := by
  have hrange : 0 ≤ normDiff m (ni + 1) (nj + 1) ∧ normDiff m (ni + 1) (nj + 1) < m := by
    by_cases hneg : nj + 1 - (ni + 1) < 0
    · simp only [normDiff, if_pos hneg]; omega
    · simp only [normDiff, if_neg hneg]; omega
  exact ⟨hrange, normBezout_range m _ hm hrange.1 hrange.2⟩

/-- Witness for the amended C3 at `m = 7`, `ni = 2`, `nj = 6`. -/
theorem join_normalization_witness :
    (0 ≤ normDiff 7 (2 + 1) (6 + 1) ∧ normDiff 7 (2 + 1) (6 + 1) < 7) ∧
      (0 ≤ normBezout 7 (normDiff 7 (2 + 1) (6 + 1)) ∧
        normBezout 7 (normDiff 7 (2 + 1) (6 + 1)) < 7) :=
  join_normalization 7 2 6 (by decide) (by decide) (by decide) (by decide) (by decide)

/-! ### Split success characterization (C7) -/

/-- Shared helper: a successful coefficient loop produced exactly `cnt`
sequential draws, each `sample(mm1) + 1`, hence in `[1, mm1]`. -/
lemma genCoeffs_ok (cnt : ℕ) (mm1 : ℤ) :
    ∀ (s : List ℕ) (cs : List ℤ) (rest : List ℕ),
      genCoeffs cnt mm1 s = some (.ok (cs, rest)) →
        cs.length = cnt ∧ ∀ c ∈ cs, 1 ≤ c ∧ c ≤ mm1 := by
  induction cnt with
  | zero =>
    intro s cs rest h
    rw [genCoeffs] at h
    cases h
    simp
  | succ cnt ih =>
    intro s cs rest h
    rw [genCoeffs] at h
    rcases hr : randomNumber mm1 s with _ | r
    · rw [hr] at h; cases h
    · rcases r with _ | e | ⟨v, s'⟩
      · rw [hr] at h; cases h
      · rw [hr] at h; cases h
      · rw [hr] at h
        dsimp only at h
        rcases hg : genCoeffs cnt mm1 s' with _ | r2
        · rw [hg] at h; cases h
        · rcases r2 with _ | e2 | ⟨cs', s''⟩
          · rw [hg] at h; cases h
          · rw [hg] at h; cases h
          · rw [hg] at h
            cases h
            obtain ⟨hlen, hall⟩ := ih _ _ _ hg
            have hv := randomNumberAux_cases _ _ _ _ hr
            rcases hv with hv | hv | ⟨v', rest', hv, hv0, hv1⟩
            · cases hv
            · cases hv
            · cases hv
              refine ⟨by simp [hlen], fun c hc => ?_⟩
              rcases List.mem_cons.mp hc with rfl | hc'
              · omega
              · exact hall c hc'

/-- Shared helper: full characterization of a successful `Split` run. -/
lemma split_ok_char (secret m k n : ℤ) (rand : List ℕ) (shares : List ℤ)
    (hm : 0 < m) (h : Split secret m k n rand = some (.ok shares)) :
    (1 ≤ k ∧ k ≤ n ∧ secret < m) ∧ shares.length = n.toNat ∧
      ∃ cs rest, genCoeffs (k.toNat - 1) (m - 1) rand = some (.ok (cs, rest)) ∧
        cs.length = k.toNat - 1 ∧ (∀ c ∈ cs, 1 ≤ c ∧ c < m) ∧
        ∀ i, i < n.toNat →
          shares.getD i 0 = polyEval (secret :: cs) ((i : ℤ) + 1) % m ∧
            0 ≤ shares.getD i 0 ∧ shares.getD i 0 < m := by
  by_cases h1 : k < 1 ∨ n < k
  · rw [Split, if_pos h1] at h; cases h
  · by_cases h2 : m ≤ secret
    · rw [Split, if_neg h1, if_pos h2] at h; cases h
    · rw [Split, if_neg h1, if_neg h2] at h
      rcases hg : genCoeffs (k.toNat - 1) (m - 1) rand with _ | r
      · rw [hg] at h; cases h
      · rcases r with _ | e | ⟨cs, rest⟩
        · rw [hg] at h; cases h
        · rw [hg] at h; cases h
        · rw [hg] at h
          dsimp only at h
          rw [if_neg (by omega : ¬m = 0)] at h
          cases h
          obtain ⟨hlen, hall⟩ := genCoeffs_ok _ _ _ _ _ hg
          refine ⟨⟨by omega, by omega, by omega⟩, by simp, cs, rest, rfl, hlen,
            fun c hc => ⟨(hall c hc).1, by have := (hall c hc).2; omega⟩, ?_⟩
          intro i hi
          have hi' : i < ((List.range n.toNat).map
              (fun i : ℕ => polyEval (secret :: cs) ((i : ℤ) + 1) % m)).length := by
            simpa using hi
          rw [List.getD_eq_getElem _ _ hi', List.getElem_map, List.getElem_range]
          exact ⟨rfl, Int.emod_nonneg _ (by omega), Int.emod_lt_of_pos _ hm⟩

/-- C7: on success (with a positive modulus, per the data model), `Split`
returns exactly `n` values; the coefficient loop succeeded with exactly
`k - 1` sequentially drawn coefficients `a[j] = sample(modulus-1) + 1`,
each in `[1, modulus-1]` and never zero; and the share at zero-based
position `i` equals `(Σ_j a[j]·(i+1)^j) mod modulus` with `a[0] = secret`,
and lies in `[0, modulus)`. -/
theorem split_shares (secret m k n : ℤ) (rand : List ℕ) (shares : List ℤ)
    (hm : 0 < m) (h : Split secret m k n rand = some (.ok shares)) :
    shares.length = n.toNat ∧
      ∃ cs rest, genCoeffs (k.toNat - 1) (m - 1) rand = some (.ok (cs, rest)) ∧
        cs.length = k.toNat - 1 ∧ (∀ c ∈ cs, 1 ≤ c ∧ c < m) ∧
        ∀ i, i < n.toNat →
          shares.getD i 0 = polyEval (secret :: cs) ((i : ℤ) + 1) % m ∧
            0 ≤ shares.getD i 0 ∧ shares.getD i 0 < m :=
  (split_ok_char secret m k n rand shares hm h).2

/-- Witness for C7 at `Split(3, 5, 2, 3)` with byte source `[1]`. -/
theorem split_shares_witness :
    ([0, 2, 4] : List ℤ).length = (3 : ℤ).toNat ∧
      ∃ cs rest, genCoeffs ((2 : ℤ).toNat - 1) (5 - 1) [1] = some (.ok (cs, rest)) ∧
        cs.length = (2 : ℤ).toNat - 1 ∧ (∀ c ∈ cs, 1 ≤ c ∧ c < 5) ∧
        ∀ i, i < (3 : ℤ).toNat →
          ([0, 2, 4] : List ℤ).getD i 0 = polyEval (3 :: cs) ((i : ℤ) + 1) % 5 ∧
            0 ≤ ([0, 2, 4] : List ℤ).getD i 0 ∧ ([0, 2, 4] : List ℤ).getD i 0 < 5 :=
  split_shares 3 5 2 3 [1] [0, 2, 4] (by decide) (by decide)

/-! ### Share order independence (C8) -/

lemma emod_mul_emod (a b m : ℤ) : a % m * b % m = a * b % m := by
  rw [Int.mul_emod, Int.emod_emod_of_dvd a dvd_rfl, ← Int.mul_emod]

/-- The multiplicative contribution of one "other" share number `nj` to the
inner loop of `Join`: `x_j` times the normalized inverse of `x_j - x_i`. -/
def joinFactor (m xi nj : ℤ) : ℤ := (nj + 1) * normBezout m (normDiff m xi (nj + 1))

lemma joinStep_eq (m xi c nj : ℤ) : joinStep m xi c nj = c * joinFactor m xi nj % m := by
  rw [joinStep, joinFactor, mul_assoc]

/-- On a non-empty list of others, the inner loop computes the product of
the factors, reduced mod `m`. -/
lemma cTerm_eq_prod (m xi : ℤ) :
    ∀ (l : List ℤ) (c : ℤ), l ≠ [] →
      l.foldl (joinStep m xi) c = c * (l.map (joinFactor m xi)).prod % m := by
  intro l
  induction l with
  | nil => intro c h; exact absurd rfl h
  | cons x t ih =>
    intro c _
    rcases eq_or_ne t [] with rfl | ht
    · rw [List.foldl_cons, List.foldl_nil, joinStep_eq]
      simp
    · rw [List.foldl_cons, ih _ ht, joinStep_eq, List.map_cons, List.prod_cons,
        emod_mul_emod, mul_assoc]

/-- The inner-loop result depends on the other share numbers only through
their multiset: it is invariant under permutation. -/
lemma cTerm_perm (m xi : ℤ) (l l' : List ℤ) (hp : l.Perm l') :
    cTerm m xi l = cTerm m xi l' := by
  rcases eq_or_ne l [] with rfl | hl
  · rw [hp.nil_eq.symm]
  · have hl' : l' ≠ [] := by
      intro h
      subst h
      exact hl hp.eq_nil
    rw [cTerm, cTerm, cTerm_eq_prod m xi l 1 hl, cTerm_eq_prod m xi l' 1 hl',
      ((hp.map (joinFactor m xi)).prod_eq : _)]

/-- The interpolation terms are invariant under permuting the list of
already-processed share numbers. -/
lemma termListP_pre_perm (m : ℤ) :
    ∀ (l : List (ℤ × ℤ)) (pre pre' : List ℤ), pre.Perm pre' →
      (termListP m pre l).sum = (termListP m pre' l).sum := by
  intro l
  induction l with
  | nil => intro pre pre' _; rfl
  | cons x rest ih =>
    intro pre pre' hp
    obtain ⟨y, nh⟩ := x
    rw [termListP, termListP, List.sum_cons, List.sum_cons,
      cTerm_perm m (nh + 1) _ _ (hp.append_right (rest.map Prod.snd)),
      ih (pre ++ [nh]) (pre' ++ [nh]) (hp.append_right [nh])]

/-- The sum of interpolation terms is invariant under permuting the
`(share, shareNumber)` pairs. -/
lemma termListP_perm (m : ℤ) (l l' : List (ℤ × ℤ)) (hp : l.Perm l') :
    ∀ pre, (termListP m pre l).sum = (termListP m pre l').sum := by
  induction hp with
  | nil => intro pre; rfl
  | cons x h ih =>
    intro pre
    obtain ⟨y, nh⟩ := x
    rw [termListP, termListP, List.sum_cons, List.sum_cons,
      cTerm_perm m (nh + 1) _ _ ((h.map Prod.snd).append_left pre), ih (pre ++ [nh])]
  | swap a b l =>
    intro pre
    obtain ⟨y1, n1⟩ := a
    obtain ⟨y2, n2⟩ := b
    rw [termListP, termListP, termListP, termListP]
    rw [List.sum_cons, List.sum_cons, List.sum_cons, List.sum_cons]
    simp only [List.map_cons]
    have e1 : pre ++ n1 :: List.map Prod.snd l = pre ++ [n1] ++ List.map Prod.snd l := by
      simp
    have e2 : pre ++ n2 :: List.map Prod.snd l = pre ++ [n2] ++ List.map Prod.snd l := by
      simp
    rw [e1, e2]
    rw [termListP_pre_perm m l (pre ++ [n2] ++ [n1]) (pre ++ [n1] ++ [n2])
      (by simpa using (List.Perm.swap n1 n2 []).append_left pre)]
    ring
  | trans h1 h2 ih1 ih2 =>
    intro pre
    exact (ih1 pre).trans (ih2 pre)

/-- With a zero modulus and valid inputs, `joinLoop` always panics at a
`c.Mod(c, 0)` (inner loop) or the final `secret.Mod(secret, 0)`. -/
lemma joinLoop_zero (sh nu pre : List ℤ) (acc : ℤ)
    (hlen : sh.length = nu.length) (hpos : ∀ x ∈ nu, 0 ≤ x) :
    joinLoop 0 pre sh nu acc = .panicked := by
  rcases sh with _ | ⟨y, ys⟩
  · rw [joinLoop, if_pos rfl]
  · rcases nu with _ | ⟨nh, ns⟩
    · simp at hlen
    · rw [joinLoop, if_neg (not_lt.mpr (hpos nh (by simp)))]
      rcases eq_or_ne (pre ++ ns) [] with he | he
      · rw [if_neg (by simp [he])]
        have hys : ys = [] := by
          have := List.append_eq_nil.mp he
          rcases this with ⟨_, h2⟩
          subst h2
          simpa using hlen
        subst hys
        rw [joinLoop, if_pos rfl]
      · rw [if_pos ⟨rfl, he⟩]

/-- C8: permuting the `(share, shareNumber)` pairs handed to `Join` (valid
input: equal lengths, non-negative share numbers) never changes the result —
the same value, error, or panic is produced for every modulus. -/
theorem join_order_independence (m : ℤ) (sh nu sh' nu' : List ℤ)
    (hlen : sh.length = nu.length) (hlen' : sh'.length = nu'.length)
    (hperm : (sh.zip nu).Perm (sh'.zip nu')) (hpos : ∀ x ∈ nu, 0 ≤ x) :
    Join sh nu m = Join sh' nu' m := by
  have hnu : nu = (sh.zip nu).map Prod.snd := (List.map_snd_zip sh nu hlen.ge).symm
  have hnu' : nu' = (sh'.zip nu').map Prod.snd := (List.map_snd_zip sh' nu' hlen'.ge).symm
  have hpos' : ∀ x ∈ nu', 0 ≤ x := by
    intro x hx
    rw [hnu'] at hx
    obtain ⟨p, hp, hpx⟩ := List.mem_map.mp hx
    have hpmem : p ∈ sh.zip nu := hperm.mem_iff.mpr hp
    have : p.2 ∈ nu := by
      rw [hnu]
      exact List.mem_map_of_mem Prod.snd hpmem
    rw [← hpx]
    exact hpos _ this
  rcases eq_or_ne m 0 with rfl | hm
  · rw [Join, Join, if_neg (by simpa using hlen), if_neg (by simpa using hlen'),
      joinLoop_zero sh nu [] 0 hlen hpos, joinLoop_zero sh' nu' [] 0 hlen' hpos']
  · rw [Join, Join, if_neg (by simpa using hlen), if_neg (by simpa using hlen'),
      joinLoop_ok m hm sh nu [] 0 hlen hpos, joinLoop_ok m hm sh' nu' [] 0 hlen' hpos',
      termListP_perm m _ _ hperm []]

/-- Witness for C8: swapping the two shares of a concrete valid input. -/
theorem join_order_independence_witness : Join [0, 4] [0, 2] 5 = Join [4, 0] [2, 0] 5 :=
  join_order_independence 5 [0, 4] [0, 2] [4, 0] [2, 0] (by decide) (by decide)
    (by decide) (by decide)

/-! ### Round trip (C1, C9): infrastructure

The polynomial built by `Split` is re-read in `ZMod p`, `Join`'s inner loop
is identified with the evaluation at `0` of the Lagrange interpolant, and
Mathlib's `Lagrange.eq_interpolate` recovers the constant term. -/

section RoundTrip

variable (p : ℕ) [Fact p.Prime]

/-- The coefficient list of `Split`, read as a polynomial over `ZMod p`. -/
noncomputable def ofCoeffList : List ℤ → Polynomial (ZMod p)
  | [] => 0
  | c :: cs => Polynomial.C (c : ZMod p) + Polynomial.X * ofCoeffList cs

lemma polyEvalAux_succ (x : ℤ) (cs : List ℤ) :
    ∀ j : ℕ, polyEvalAux x cs (j + 1) = x * polyEvalAux x cs j := by
  induction cs with
  | nil => intro j; rw [polyEvalAux, polyEvalAux, mul_zero]
  | cons c cs ih => intro j; rw [polyEvalAux, polyEvalAux, ih (j + 1)]; ring

lemma polyEval_cons (c : ℤ) (cs : List ℤ) (x : ℤ) :
    polyEval (c :: cs) x = c + x * polyEval cs x := by
  rw [polyEval, polyEval, polyEvalAux, polyEvalAux_succ, pow_zero, mul_one]

lemma ofCoeffList_eval (a : List ℤ) (x : ℤ) :
    ((polyEval a x : ℤ) : ZMod p) = (ofCoeffList p a).eval ((x : ℤ) : ZMod p) := by
  induction a with
  | nil => simp [polyEval, polyEvalAux, ofCoeffList]
  | cons c cs ih =>
    rw [polyEval_cons, ofCoeffList]
    push_cast
    rw [ih]
    simp [Polynomial.eval_add, Polynomial.eval_mul]

lemma ofCoeffList_degree : ∀ a : List ℤ, (ofCoeffList p a).degree < (a.length : WithBot ℕ)
  | [] => by
    rw [ofCoeffList, Polynomial.degree_zero]
    exact WithBot.bot_lt_coe 0
  | c :: cs => by
    rw [ofCoeffList]
    refine lt_of_le_of_lt (Polynomial.degree_add_le _ _) (max_lt ?_ ?_)
    · refine lt_of_le_of_lt Polynomial.degree_C_le ?_
      rw [show ((0 : WithBot ℕ)) = ((0 : ℕ) : WithBot ℕ) from rfl, List.length_cons]
      exact_mod_cast Nat.succ_pos cs.length
    · calc (Polynomial.X * ofCoeffList p cs).degree
          ≤ 1 + (ofCoeffList p cs).degree := by
            refine le_trans (Polynomial.degree_mul_le _ _) ?_
            rw [Polynomial.degree_X]
        _ < 1 + (cs.length : WithBot ℕ) :=
            WithBot.add_lt_add_left (by simp) (ofCoeffList_degree cs)
        _ = (((c :: cs).length : ℕ) : WithBot ℕ) := by
            rw [List.length_cons]
            push_cast
            ring

lemma intCast_zmod_emod (a : ℤ) : ((a % (p : ℤ) : ℤ) : ZMod p) = (a : ZMod p) := by
  push_cast
  ring

lemma cast_ne_of_range (a b : ℤ) (ha0 : 0 ≤ a) (ha1 : a < p) (hb0 : 0 ≤ b)
    (hb1 : b < p) (hne : a ≠ b) : (a : ZMod p) ≠ (b : ZMod p) := by
  intro hcast
  rw [ZMod.intCast_eq_intCast_iff] at hcast
  have h : a % (p : ℤ) = b % (p : ℤ) := hcast
  rw [Int.emod_eq_of_lt ha0 ha1, Int.emod_eq_of_lt hb0 hb1] at h
  exact hne h

/-- The normalized Bézout coefficient `Join` multiplies in is, mod `p`, the
inverse of the point difference. -/
lemma normBezout_cast (xi xj : ℤ) (h1 : -(p : ℤ) < xj - xi) (h2 : xj - xi < p)
    (hne : (xj : ZMod p) ≠ (xi : ZMod p)) :
    ((normBezout (p : ℤ) (normDiff (p : ℤ) xi xj) : ℤ) : ZMod p) =
      ((xj : ZMod p) - (xi : ZMod p))⁻¹ := by
  have hp1 : 1 < p := (Fact.out : p.Prime).one_lt
  set D := normDiff (p : ℤ) xi xj with hD
  have hDrange : 0 ≤ D ∧ D < (p : ℤ) := by
    rw [hD]
    by_cases hneg : xj - xi < 0
    · simp only [normDiff, if_pos hneg]; omega
    · simp only [normDiff, if_neg hneg]; omega
  have hDcast : (D : ZMod p) = (xj : ZMod p) - (xi : ZMod p) := by
    rw [hD]
    by_cases hneg : xj - xi < 0
    · simp only [normDiff, if_pos hneg]
      push_cast
      rw [ZMod.natCast_self]
      ring
    · simp only [normDiff, if_neg hneg]
      push_cast
      ring
  have hD0 : D ≠ 0 := by
    intro h
    apply hne
    have h0 : ((0 : ℤ) : ZMod p) = (xj : ZMod p) - (xi : ZMod p) := h ▸ hDcast
    rw [Int.cast_zero] at h0
    exact sub_eq_zero.mp h0.symm
  have hgd := egcd_dvd D (p : ℤ)
  have hgnn := egcd_fst_nonneg D (p : ℤ) (by omega) (by omega)
  have hg1 : (egcd D (p : ℤ)).1 = 1 := by
    have hgp : (egcd D (p : ℤ)).1 ∣ (p : ℤ) := hgd.2
    have hgD : (egcd D (p : ℤ)).1 ∣ D := hgd.1
    rw [← Int.toNat_of_nonneg hgnn] at hgp
    have hdvd : (egcd D (p : ℤ)).1.toNat ∣ p := Int.natCast_dvd_natCast.mp hgp
    rcases (Fact.out : p.Prime).eq_one_or_self_of_dvd _ hdvd with h1 | h1
    · omega
    · exfalso
      have hgp' : (egcd D (p : ℤ)).1 = (p : ℤ) := by omega
      rw [hgp'] at hgD
      have := Int.le_of_dvd (by omega) hgD
      omega
  have hbez := egcd_bezout D (p : ℤ)
  rw [hg1] at hbez
  have hcast : (D : ZMod p) * (((egcd D (p : ℤ)).2.1 : ℤ) : ZMod p) = 1 := by
    have hc := congrArg (fun z : ℤ => (z : ZMod p)) hbez
    push_cast at hc
    rw [ZMod.natCast_self] at hc
    simpa using hc
  have hinv : (((egcd D (p : ℤ)).2.1 : ℤ) : ZMod p) = ((xj : ZMod p) - (xi : ZMod p))⁻¹ := by
    rw [← hDcast]
    exact (inv_eq_of_mul_eq_one_right hcast).symm
  rw [normBezout]
  by_cases hx : (egcd D (p : ℤ)).2.1 < 0
  · rw [if_pos hx]
    push_cast
    rw [ZMod.natCast_self, add_zero]
    exact hinv
  · rw [if_neg hx]
    exact hinv

/-- Mod `p`, `Join`'s factor for the current point `zi + 1` and the other
share number `nj` is `x_j · (x_j − x_i)⁻¹`. -/
lemma joinFactor_cast (zi nj : ℤ) (hzi0 : 0 ≤ zi) (hzi1 : zi < p) (hnj0 : 0 ≤ nj)
    (hnj1 : nj < p) (hne : nj ≠ zi) :
    ((joinFactor (p : ℤ) (zi + 1) nj : ℤ) : ZMod p) =
      ((nj : ZMod p) + 1) * ((nj : ZMod p) + 1 - ((zi : ZMod p) + 1))⁻¹ := by
  have hnec : ((nj + 1 : ℤ) : ZMod p) ≠ ((zi + 1 : ℤ) : ZMod p) := by
    intro h
    push_cast at h
    exact cast_ne_of_range p nj zi hnj0 hnj1 hzi0 hzi1 hne (add_right_cancel h)
  have hnb := normBezout_cast p (zi + 1) (nj + 1) (by omega) (by omega) hnec
  rw [joinFactor]
  push_cast
  push_cast at hnb
  rw [hnb]

/-- Mod `p`, the inner loop is the product of the factors of the others. -/
lemma cTerm_cast (xi : ℤ) (others : List ℤ) :
    ((cTerm (p : ℤ) xi others : ℤ) : ZMod p) =
      (others.map (fun nj => ((joinFactor (p : ℤ) xi nj : ℤ) : ZMod p))).prod := by
  rcases eq_or_ne others [] with rfl | h
  · simp [cTerm]
  · rw [cTerm, cTerm_eq_prod _ _ _ _ h, one_mul, intCast_zmod_emod]
    have hmp := map_list_prod (Int.castRingHom (ZMod p))
      (others.map (joinFactor (p : ℤ) xi))
    rw [List.map_map] at hmp
    simp only [Int.coe_castRingHom, Function.comp_def] at hmp
    exact hmp

/-- Mod `p`, the sum of `Join`'s terms over share numbers `sel` (with the
numbers in `pre` already processed) is the Lagrange-basis weighted sum of
the share values. -/
lemma termListP_sum_cast (g : ℤ → ℤ) :
    ∀ (sel pre : List ℤ),
      (∀ a ∈ pre ++ sel, 0 ≤ a ∧ a < (p : ℤ)) → (pre ++ sel).Nodup →
      (((termListP (p : ℤ) pre (sel.map (fun z => (g z, z)))).sum : ℤ) : ZMod p) =
        ∑ i ∈ sel.toFinset, (g i : ZMod p) *
          ∏ j ∈ ((pre ++ sel).toFinset.erase i),
            (((j : ZMod p) + 1) * ((j : ZMod p) + 1 - ((i : ZMod p) + 1))⁻¹) := by
  intro sel
  induction sel with
  | nil => intro pre _ _; simp [termListP]
  | cons z zs ih =>
    intro pre hb hnd
    have hsnd : (zs.map (fun z => (g z, z))).map Prod.snd = zs := by
      rw [List.map_map]
      exact List.map_id zs
    rw [List.map_cons, termListP, hsnd, List.sum_cons, Int.cast_add, Int.cast_mul,
      cTerm_cast]
    obtain ⟨hznotin, hnd'⟩ := List.nodup_cons.mp (List.nodup_middle.mp hnd)
    have hz_zs : z ∉ zs := fun hmem => hznotin (List.mem_append.mpr (Or.inr hmem))
    have hzb := hb z (by simp)
    have hfac : ((pre ++ zs).map
          (fun nj => ((joinFactor (p : ℤ) (z + 1) nj : ℤ) : ZMod p))).prod =
        ((pre ++ zs).map (fun nj : ℤ =>
          ((nj : ZMod p) + 1) * ((nj : ZMod p) + 1 - ((z : ZMod p) + 1))⁻¹)).prod := by
      refine congrArg List.prod (List.map_congr_left fun a ha => ?_)
      have hampre : a ∈ pre ++ z :: zs := by
        rcases List.mem_append.mp ha with h' | h'
        · exact List.mem_append.mpr (Or.inl h')
        · exact List.mem_append.mpr (Or.inr (List.mem_cons_of_mem z h'))
      have hab := hb a hampre
      exact joinFactor_cast p z a hzb.1 hzb.2 hab.1 hab.2
        (fun haz => hznotin (haz ▸ ha))
    rw [hfac, ← List.prod_toFinset _ hnd']
    have hT : (pre ++ z :: zs).toFinset.erase z = (pre ++ zs).toFinset := by
      rw [List.toFinset_append, List.toFinset_cons, List.toFinset_append,
        Finset.union_insert, Finset.erase_insert (by simpa using hznotin)]
    have hl : (pre ++ [z]) ++ zs = pre ++ z :: zs := by simp
    have htail := ih (pre ++ [z]) (by rw [hl]; exact hb) (by rw [hl]; exact hnd)
    rw [hl] at htail
    rw [htail, List.toFinset_cons, Finset.sum_insert (by simpa using hz_zs), hT]
    ring

/-- Evaluating the Lagrange interpolation identity at `0`. -/
lemma lagrange_eval_zero (s : Finset ℤ) (v : ℤ → ZMod p) (hinj : Set.InjOn v s)
    (f : Polynomial (ZMod p)) (hdeg : f.degree < s.card) :
    ∑ i ∈ s, f.eval (v i) * ∏ j ∈ s.erase i, (v j * (v j - v i)⁻¹) = f.eval 0 := by
  have hinterp := Lagrange.eq_interpolate hinj hdeg
  conv_rhs => rw [hinterp]
  rw [Lagrange.interpolate_apply, Polynomial.eval_finset_sum]
  refine Finset.sum_congr rfl fun i _ => ?_
  rw [Polynomial.eval_mul, Polynomial.eval_C]
  congr 1
  rw [Lagrange.basis, Polynomial.eval_prod]
  refine Finset.prod_congr rfl fun j _ => ?_
  rw [Lagrange.basisDivisor, Polynomial.eval_mul, Polynomial.eval_C,
    Polynomial.eval_sub, Polynomial.eval_X, Polynomial.eval_C]
  rw [show v i - v j = -(v j - v i) by ring, inv_neg, zero_sub, neg_mul_neg]
  ring

/-- Master round-trip lemma: for a prime modulus `p` with `n ≤ p`, joining
any `k`-subset of the shares (with matching zero-based indices) recovers
`secret mod p`. -/
lemma roundtrip_master (secret k n : ℤ) (rand : List ℕ) (shares : List ℤ)
    (hnp : n ≤ (p : ℤ)) (hsplit : Split secret (p : ℤ) k n rand = some (.ok shares))
    (sel : List ℕ) (hnd : sel.Nodup) (hlen : sel.length = k.toNat)
    (hmem : ∀ i ∈ sel, i < n.toNat) :
    Join (sel.map (fun i : ℕ => shares.getD i 0)) (sel.map (fun i : ℕ => (i : ℤ)))
      (p : ℤ) = .ok (secret % (p : ℤ)) := by
  have hp1 : 1 < p := (Fact.out : p.Prime).one_lt
  have hm : (0 : ℤ) < (p : ℤ) := by omega
  obtain ⟨⟨hk1, hkn, hsec⟩, hslen, cs, rest, hgen, hclen, hcrange, hform⟩ :=
    split_ok_char secret (p : ℤ) k n rand shares hm hsplit
  have hn0 : 0 ≤ n := by omega
  have hnn : (n.toNat : ℤ) = n := Int.toNat_of_nonneg hn0
  set selZ := sel.map (fun i : ℕ => (i : ℤ)) with hselZ
  set g : ℤ → ℤ := fun z => polyEval (secret :: cs) (z + 1) % (p : ℤ) with hg
  have hndZ : selZ.Nodup := hnd.map (fun a b hab => by omega)
  have hbounds : ∀ z ∈ selZ, 0 ≤ z ∧ z < (p : ℤ) := by
    intro z hz
    rw [hselZ] at hz
    obtain ⟨i, hi, rfl⟩ := List.mem_map.mp hz
    have := hmem i hi
    omega
  have hvals : sel.map (fun i : ℕ => shares.getD i 0) = selZ.map g := by
    rw [hselZ, List.map_map]
    refine List.map_congr_left fun i hi => ?_
    have := (hform i (hmem i hi)).1
    simpa [hg, Function.comp] using this
  have hjoin0 := joinLoop_ok (p : ℤ) (by omega : (p : ℤ) ≠ 0) (selZ.map g) selZ [] 0
    (by simp) (fun x hx => (hbounds x hx).1)
  rw [zero_add] at hjoin0
  have hjoin : Join (selZ.map g) selZ (p : ℤ) =
      .ok ((termListP (p : ℤ) [] ((selZ.map g).zip selZ)).sum % (p : ℤ)) := by
    rw [Join, if_neg (by simp)]
    exact hjoin0
  have hzip : (selZ.map g).zip selZ = selZ.map (fun z => (g z, z)) := by
    have hz := List.zip_map' g id selZ
    simpa using hz
  have hsum0 := termListP_sum_cast p g selZ [] (by simpa using hbounds)
    (by simpa using hndZ)
  have hsum : (((termListP (p : ℤ) [] (selZ.map (fun z => (g z, z)))).sum : ℤ) : ZMod p) =
      ∑ i ∈ selZ.toFinset, (g i : ZMod p) *
        ∏ j ∈ (selZ.toFinset.erase i),
          (((j : ZMod p) + 1) * ((j : ZMod p) + 1 - ((i : ZMod p) + 1))⁻¹) := hsum0
  have hgeval : ∀ i ∈ selZ.toFinset, ((g i : ℤ) : ZMod p) =
      (ofCoeffList p (secret :: cs)).eval ((i : ZMod p) + 1) := by
    intro i _
    rw [hg]
    dsimp only
    rw [intCast_zmod_emod, ofCoeffList_eval]
    norm_cast
  have hinj : Set.InjOn (fun z : ℤ => (z : ZMod p) + 1) (selZ.toFinset : Set ℤ) := by
    intro x hx y hy hxy
    have hx' : x ∈ selZ := by simpa using hx
    have hy' : y ∈ selZ := by simpa using hy
    by_contra hne
    exact cast_ne_of_range p x y (hbounds x hx').1 (hbounds x hx').2
      (hbounds y hy').1 (hbounds y hy').2 hne (add_right_cancel hxy)
  have hcard : selZ.toFinset.card = (secret :: cs).length := by
    rw [List.toFinset_card_of_nodup hndZ, hselZ, List.length_map, hlen,
      List.length_cons, hclen]
    omega
  have hdeg : (ofCoeffList p (secret :: cs)).degree < (selZ.toFinset.card : WithBot ℕ) := by
    rw [hcard]
    exact ofCoeffList_degree p (secret :: cs)
  have hlag := lagrange_eval_zero p selZ.toFinset (fun z : ℤ => (z : ZMod p) + 1) hinj
    (ofCoeffList p (secret :: cs)) hdeg
  have hlag' : ∑ i ∈ selZ.toFinset,
      (ofCoeffList p (secret :: cs)).eval ((i : ZMod p) + 1) *
        ∏ j ∈ selZ.toFinset.erase i,
          (((j : ZMod p) + 1) * ((j : ZMod p) + 1 - ((i : ZMod p) + 1))⁻¹) =
      (ofCoeffList p (secret :: cs)).eval 0 := hlag
  have heval0 : (ofCoeffList p (secret :: cs)).eval 0 = ((secret : ℤ) : ZMod p) := by
    rw [ofCoeffList]
    simp
  have hchain : (((termListP (p : ℤ) [] (selZ.map (fun z => (g z, z)))).sum : ℤ) : ZMod p)
      = ((secret : ℤ) : ZMod p) := by
    rw [hsum, ← heval0, ← hlag']
    exact Finset.sum_congr rfl fun i hi => by rw [hgeval i hi]
  have hfin : (termListP (p : ℤ) [] (selZ.map (fun z => (g z, z)))).sum % (p : ℤ) =
      secret % (p : ℤ) := (ZMod.intCast_eq_intCast_iff _ _ _).mp hchain
  rw [hvals, hjoin, hzip, hfin]

end RoundTrip

/-- C1 counterexample: with the prime modulus `2`, `k = 2`, `n = 3` the
round trip fails as stated.  `Split(1, 2, 2, 3)` (byte source `[0]`)
succeeds with shares `[0, 1, 0]`, but joining the 2-subset made of share 0
and share 2 (zero-based indices `0` and `2`) yields `0`, not the secret `1`:
the evaluation points `1` and `3` coincide mod `2`, so the claim needs the
additional hypothesis `n ≤ modulus`. -/
theorem roundtrip_counterexample :
    Nat.Prime 2 ∧ Split 1 2 2 3 [0] = some (.ok [0, 1, 0]) ∧
      Join [([0, 1, 0] : List ℤ).getD 0 0, ([0, 1, 0] : List ℤ).getD 2 0]
        [(0 : ℤ), 2] 2 = .ok 0 ∧ (0 : ℤ) ≠ 1 :=
  ⟨by norm_num, by decide, by decide, by decide⟩

/-- C1 amended: round trip with the additional hypothesis `n ≤ modulus`
(which makes the `n` evaluation points distinct mod `p`): for every prime
modulus `p`, every secret with `0 ≤ secret < p`, every byte source on which
`Split` succeeds, and every exactly-`k`-sized subset `sel` of the `n` share
positions, joining those shares with their zero-based indices returns the
secret.  (`1 ≤ k ≤ n` and `secret < p` are forced by `Split`'s own checks.) -/
theorem split_join_roundtrip (p : ℕ) (hp : Nat.Prime p) (secret k n : ℤ)
    (rand : List ℕ) (shares : List ℤ) (hsec0 : 0 ≤ secret) (hnp : n ≤ (p : ℤ))
    (hsplit : Split secret (p : ℤ) k n rand = some (.ok shares))
    (sel : List ℕ) (hnd : sel.Nodup) (hlen : sel.length = k.toNat)
    (hmem : ∀ i ∈ sel, i < n.toNat) :
    Join (sel.map (fun i : ℕ => shares.getD i 0)) (sel.map (fun i : ℕ => (i : ℤ)))
      (p : ℤ) = .ok secret := by
  haveI : Fact p.Prime := ⟨hp⟩
  have hm : (0 : ℤ) < (p : ℤ) := by have := hp.one_lt; omega
  have h := roundtrip_master p secret k n rand shares hnp hsplit sel hnd hlen hmem
  have hsec1 : secret < (p : ℤ) :=
    (split_ok_char secret (p : ℤ) k n rand shares hm hsplit).1.2.2
  rwa [Int.emod_eq_of_lt hsec0 hsec1] at h

/-- Witness for the amended C1: `p = 5`, `secret = 3`, `k = 2`, `n = 3`,
byte source `[1]`, subset `{0, 2}`. -/
theorem split_join_roundtrip_witness :
    Join ([0, 2].map (fun i : ℕ => ([0, 2, 4] : List ℤ).getD i 0))
      ([0, 2].map (fun i : ℕ => (i : ℤ))) ((5 : ℕ) : ℤ) = .ok 3 :=
  split_join_roundtrip 5 (by norm_num) 3 2 3 [1] [0, 2, 4] (by decide) (by decide)
    (by decide) [0, 2] (by decide) (by decide) (by decide)

/-- C9 counterexample: for the negative secret `-1` (prime modulus `2`,
`k = 2`, `n = 3`), `Split` succeeds, but joining shares 0 and 2 yields `0`,
which is NOT `secret mod modulus = 1`: as with C1, the claim additionally
needs `n ≤ modulus`. -/
theorem negative_secret_counterexample :
    Split (-1) 2 2 3 [0] = some (.ok [0, 1, 0]) ∧
      Join [([0, 1, 0] : List ℤ).getD 0 0, ([0, 1, 0] : List ℤ).getD 2 0]
        [(0 : ℤ), 2] 2 = .ok 0 ∧ (-1 : ℤ) % 2 = 1 ∧ (0 : ℤ) ≠ 1 :=
  ⟨by decide, by decide, by decide, by decide⟩

/-- C9 amended: `Split` never rejects a negative secret (no
`SecretTooLarge` for `secret < 0 < modulus`), and — under the same
amendment as C1 (prime modulus with `n ≤ modulus`) — every returned share
still lies in `[0, modulus)`, and joining any `k` of the shares yields the
non-negative value `secret mod modulus`, never the original negative
secret. -/
theorem negative_secret_behavior :
    (∀ (secret m k n : ℤ) (rand : List ℕ), secret < 0 → 0 < m →
        Split secret m k n rand ≠ some (.failed .secretTooLarge)) ∧
      (∀ (p : ℕ), Nat.Prime p → ∀ (secret k n : ℤ) (rand : List ℕ) (shares : List ℤ),
        secret < 0 → n ≤ (p : ℤ) → Split secret (p : ℤ) k n rand = some (.ok shares) →
        ∀ (sel : List ℕ), sel.Nodup → sel.length = k.toNat →
          (∀ i ∈ sel, i < n.toNat) →
          (∀ i, i < n.toNat → 0 ≤ shares.getD i 0 ∧ shares.getD i 0 < (p : ℤ)) ∧
            Join (sel.map (fun i : ℕ => shares.getD i 0))
              (sel.map (fun i : ℕ => (i : ℤ))) (p : ℤ) = .ok (secret % (p : ℤ)) ∧
            0 ≤ secret % (p : ℤ) ∧ secret % (p : ℤ) ≠ secret) := by
  constructor
  · intro secret m k n rand hneg hm h
    rw [Split] at h
    by_cases h1 : k < 1 ∨ n < k
    · rw [if_pos h1] at h
      simp at h
    · rw [if_neg h1, if_neg (by omega)] at h
      rcases hg : genCoeffs (k.toNat - 1) (m - 1) rand with _ | r
      · rw [hg] at h; cases h
      · rcases r with _ | e | ⟨cs, rest⟩
        · rw [hg] at h; simp at h
        · rw [hg] at h
          have he := genCoeffs_failed _ _ _ _ hg
          subst he
          simp at h
        · rw [hg] at h
          dsimp only at h
          rw [if_neg (by omega : ¬m = 0)] at h
          simp at h
  · intro p hp secret k n rand shares hneg hnp hsplit sel hnd hlen hmem
    haveI : Fact p.Prime := ⟨hp⟩
    have hm : (0 : ℤ) < (p : ℤ) := by have := hp.one_lt; omega
    obtain ⟨_, _, _, _, hgen, _, _, hform⟩ :=
      split_ok_char secret (p : ℤ) k n rand shares hm hsplit
    refine ⟨fun i hi => ⟨(hform i hi).2.1, (hform i hi).2.2⟩,
      roundtrip_master p secret k n rand shares hnp hsplit sel hnd hlen hmem, ?_, ?_⟩
    · exact Int.emod_nonneg secret (by omega)
    · have := Int.emod_nonneg secret (show (p : ℤ) ≠ 0 by omega)
      omega

/-- Witness for the amended C9: `p = 5`, `secret = -2`, `k = 2`, `n = 3`,
byte source `[1]`, subset `{0, 1}`; plus the never-`SecretTooLarge` part at
a concrete negative secret. -/
theorem negative_secret_behavior_witness :
    Split (-1) 5 2 2 [] ≠ some (.failed .secretTooLarge) ∧
      ((∀ i, i < (3 : ℤ).toNat → 0 ≤ ([0, 2, 4] : List ℤ).getD i 0 ∧
          ([0, 2, 4] : List ℤ).getD i 0 < ((5 : ℕ) : ℤ)) ∧
        Join ([0, 1].map (fun i : ℕ => ([0, 2, 4] : List ℤ).getD i 0))
          ([0, 1].map (fun i : ℕ => (i : ℤ))) ((5 : ℕ) : ℤ) =
            .ok ((-2) % ((5 : ℕ) : ℤ)) ∧
        0 ≤ (-2) % ((5 : ℕ) : ℤ) ∧ (-2) % ((5 : ℕ) : ℤ) ≠ -2) :=
  ⟨negative_secret_behavior.1 (-1) 5 2 2 [] (by decide) (by decide),
    negative_secret_behavior.2 5 (by norm_num) (-2) 2 3 [1] [0, 2, 4] (by decide)
      (by decide) (by decide) [0, 1] (by decide) (by decide) (by decide)⟩

example : bitLen 5 = 3 := by decide
example : randomNumber 5 [3] = some (.ok (3, [])) := by decide
example : randomNumber 0 [] = some .panicked := by decide
example : egcd 2 5 = (1, -2, 1) := by decide
example : egcd 3 5 = (1, 2, -1) := by decide
example : Split 3 5 2 3 [1] = some (.ok [0, 2, 4]) := by decide
example : Join [0, 4] [0, 2] 5 = .ok 3 := by decide
example : Split 1 2 2 3 [0] = some (.ok [0, 1, 0]) := by decide
example : Join [0, 0] [0, 2] 2 = .ok 0 := by decide
example : Join [0, 0] [0, 2] 4 = .ok 0 := by decide
example : Join [1, 2] [0, 2] 4 = .ok 1 := by decide
